import Mathlib

/-!
Verification of the battery-monitor program (src/battery-monitor.c) against its
design document.  The C source is shallowly embedded: C strings become Lean
`String`/`List Char`, the `int`/`unsigned int` arithmetic becomes `Int`/`Nat`
with explicit `% 2 ^ 32` where the C conversions matter, the `double`
arithmetic of the bar-geometry code becomes exact `ℚ` arithmetic, and the
tailing read loop of `main` becomes a recursion over the sequence of file
"sessions" (one per `fopen`).  Fallible steps (`is_valid_line` failing, the
null first token of `strtok`) are modelled with `Option`.
-/

namespace BatteryMonitor

/-! ## Record validation: `is_valid_line` (src/battery-monitor.c lines 321-354) -/

/-- The characters stripped by `is_valid_line`: the C code tests
`strchr(" \t\r\n", line[i])`, i.e. exactly space, tab, carriage return and
line feed. -/
def isStripWS (c : Char) : Bool :=
  c = ' ' || c = '\t' || c = '\r' || c = '\n'

/-- ALLOWED_CHARS = "0123456789ABCDEFGHIJKLMNOPQRSTUVWXYZ," (line 29). -/
def allowedChars : List Char := "0123456789ABCDEFGHIJKLMNOPQRSTUVWXYZ,".toList

/-- The whitespace-stripping pass of `is_valid_line` (lines 327-333): copy
every character that is not in `" \t\r\n"`. -/
def stripWS (cs : List Char) : List Char := cs.filter (fun c => !isStripWS c)

/-- Embedding of `is_valid_line` (lines 321-354).  The C function strips
whitespace into `tmp`, marks the line invalid when the stripped copy is empty
(line 335) or contains a character outside `ALLOWED_CHARS` (lines 340-345),
and on success copies the stripped text back over the caller's buffer
(line 348).  `some t` returns the buffer contents after that copy; `none` is
the rejecting return. -/
def is_valid_line (line : String) : Option String :=
  if stripWS line.toList = [] then none
  else if (stripWS line.toList).all (fun c => decide (c ∈ allowedChars)) then
    some (String.mk (stripWS line.toList))
  else none

/-! ## Lenient integer parsing: the C library `atoi` used at line 301 -/

/-- The character set of C `isspace`, consulted by `atoi` before the digits. -/
def isSpaceC (c : Char) : Bool :=
  c = ' ' || c = '\t' || c = '\n' || c = '\x0b' || c = '\x0c' || c = '\r'

/-- Decimal-digit accumulation of `atoi`.  Overflow of the C `int` is outside
the model (readings of the monitored telemetry fit in an `int`). -/
def atoiDigits : List Char → ℤ → ℤ
  | [], acc => acc
  | c :: cs, acc =>
    if c.isDigit then atoiDigits cs (10 * acc + ((c.toNat - 48 : ℕ) : ℤ)) else acc

/-- C `atoi` on a token: skip `isspace` characters, then an optional sign,
then the maximal digit prefix; a token with no digit prefix yields 0. -/
def atoi (cs : List Char) : ℤ :=
  match cs.dropWhile isSpaceC with
  | [] => 0
  | c :: rest =>
    if c = '-' then - atoiDigits rest 0
    else if c = '+' then atoiDigits rest 0
    else atoiDigits (c :: rest) 0

/-! ## Tokenization: `strtok(line, ",")` (lines 293, 308) -/

/-- Split on commas, keeping the (possibly empty) raw fields; `acc` is the
current field accumulated in reverse. -/
def splitFields : List Char → List Char → List (List Char)
  | [], acc => [acc.reverse]
  | c :: cs, acc =>
    if c = ',' then acc.reverse :: splitFields cs []
    else splitFields cs (c :: acc)

/-- The token sequence produced by repeated `strtok(·, ",")`: the maximal
nonempty runs of non-comma characters, in order.  `strtok` skips leading,
trailing and repeated delimiters, hence the filter dropping empty fields. -/
def tokenize (s : String) : List (List Char) :=
  (splitFields s.toList []).filter (fun t => t ≠ [])

/-! ### Basic lemmas about the validator and the tokenizer -/

theorem stripWS_sublist (cs : List Char) : stripWS cs ⊆ cs := by
  intro a ha
  exact List.mem_of_mem_filter ha

theorem is_valid_line_some_iff (s : String) (t : String) :
    is_valid_line s = some t ↔
      stripWS s.toList ≠ [] ∧ (∀ c ∈ stripWS s.toList, c ∈ allowedChars) ∧
        t = String.mk (stripWS s.toList) := by
  unfold is_valid_line
  split
  · rename_i h
    simp only [reduceCtorEq, false_iff]
    intro hc
    exact hc.1 h
  · rename_i h
    split
    · rename_i hall
      simp only [List.all_eq_true, decide_eq_true_eq] at hall
      simp only [Option.some.injEq]
      constructor
      · intro he
        exact ⟨h, hall, he.symm⟩
      · intro hc
        exact hc.2.2.symm
    · rename_i hall
      simp only [List.all_eq_true, decide_eq_true_eq] at hall
      simp only [reduceCtorEq, false_iff]
      intro hc
      exact hall hc.2.1

theorem is_valid_line_none_iff (s : String) :
    is_valid_line s = none ↔
      stripWS s.toList = [] ∨ ∃ c ∈ stripWS s.toList, c ∉ allowedChars := by
  unfold is_valid_line
  split
  · rename_i h
    simp only [true_iff]
    exact Or.inl h
  · rename_i h
    split
    · rename_i hall
      simp only [List.all_eq_true, decide_eq_true_eq] at hall
      simp only [reduceCtorEq, false_iff, not_or]
      refine ⟨h, ?_⟩
      rintro ⟨c, hc, hcn⟩
      exact hcn (hall c hc)
    · rename_i hall
      simp only [List.all_eq_true, decide_eq_true_eq, not_forall] at hall
      simp only [true_iff]
      right
      obtain ⟨c, hc, hcn⟩ := hall
      exact ⟨c, hc, hcn⟩

/-- No allowed character is whitespace (checked over the 37-element list). -/
theorem allowedChars_not_ws : ∀ c ∈ allowedChars, isStripWS c = false := by
  decide

/-- No allowed character is in the `isspace` set of `atoi`. -/
theorem allowedChars_not_spaceC : ∀ c ∈ allowedChars, isSpaceC c = false := by
  decide

/-- No allowed character is a sign character. -/
theorem allowedChars_not_sign : ∀ c ∈ allowedChars, c ≠ '-' ∧ c ≠ '+' := by
  decide

/-- No allowed character is a lowercase letter. -/
theorem allowedChars_not_lower : ∀ c ∈ allowedChars, c.isLower = false := by
  decide

/-- Lowercase letters are not in the stripped whitespace set. -/
theorem isLower_not_ws (c : Char) (h : c.isLower = true) : isStripWS c = false := by
  rcases Bool.eq_false_or_eq_true (isStripWS c) with ht | hf
  · exfalso
    have hd : ((c = ' ' ∨ c = '\t') ∨ c = '\r') ∨ c = '\n' := by
      simpa [isStripWS] using ht
    rcases hd with ((rfl | rfl) | rfl) | rfl <;> simp [Char.isLower] at h
  · exact hf

/-- The tokens of `splitFields` only contain characters of the input or of
the accumulator. -/
theorem splitFields_chars :
    ∀ (cs acc t : List Char), t ∈ splitFields cs acc →
      ∀ c ∈ t, c ∈ cs ∨ c ∈ acc := by
  intro cs
  induction cs with
  | nil =>
    intro acc t ht c hc
    simp only [splitFields, List.mem_singleton] at ht
    subst ht
    exact Or.inr (List.mem_reverse.mp hc)
  | cons c0 cs ih =>
    intro acc t ht c hc
    simp only [splitFields] at ht
    by_cases h0 : c0 = ','
    · rw [if_pos h0] at ht
      rcases List.mem_cons.mp ht with h | h
      · subst h
        exact Or.inr (List.mem_reverse.mp hc)
      · rcases ih [] t h c hc with h1 | h1
        · exact Or.inl (List.mem_cons_of_mem _ h1)
        · simp at h1
    · rw [if_neg h0] at ht
      rcases ih (c0 :: acc) t ht c hc with h1 | h1
      · exact Or.inl (List.mem_cons_of_mem _ h1)
      · rcases List.mem_cons.mp h1 with h2 | h2
        · exact Or.inl (List.mem_cons.mpr (Or.inl h2))
        · exact Or.inr h2

/-- Every character of a token of `tokenize s` is a character of `s`. -/
theorem tokenize_chars (s : String) (t : List Char) (ht : t ∈ tokenize s) :
    ∀ c ∈ t, c ∈ s.toList := by
  intro c hc
  have h1 : t ∈ splitFields s.toList [] := List.mem_of_mem_filter ht
  rcases splitFields_chars s.toList [] t h1 c hc with h | h
  · exact h
  · simp at h

/-- Tokens of `tokenize` are nonempty. -/
theorem tokenize_ne_nil (s : String) (t : List Char) (ht : t ∈ tokenize s) :
    t ≠ [] := by
  have := List.of_mem_filter ht
  simpa using this

/-- Concatenating all fields of `splitFields` recovers the non-comma
characters. -/
theorem splitFields_join :
    ∀ (cs acc : List Char),
      (splitFields cs acc).flatten = acc.reverse ++ cs.filter (fun c => c ≠ ',') := by
  intro cs
  induction cs with
  | nil =>
    intro acc
    simp [splitFields]
  | cons c0 cs ih =>
    intro acc
    simp only [splitFields]
    by_cases h0 : c0 = ','
    · rw [if_pos h0]
      simp only [List.flatten_cons, ih []]
      subst h0
      simp [List.filter_cons]
    · rw [if_neg h0]
      rw [ih (c0 :: acc)]
      simp [List.filter_cons, h0]

/-- Dropping the empty fields does not change the concatenation. -/
theorem join_filter_ne_nil (l : List (List Char)) :
    (l.filter (fun t => t ≠ [])).flatten = l.flatten := by
  induction l with
  | nil => rfl
  | cons t ts ih =>
    by_cases h : t = []
    · subst h
      simpa using ih
    · rw [List.filter_cons_of_pos (by simpa using h)]
      simp only [List.flatten_cons, ih]

/-- The concatenation of the token list is the input minus its commas. -/
theorem tokenize_join (s : String) :
    (tokenize s).flatten = s.toList.filter (fun c => c ≠ ',') := by
  unfold tokenize
  rw [join_filter_ne_nil, splitFields_join]
  simp

/-! ## Voltage extraction: `read_voltages` (lines 289-311) and the battery
list recovery in `main` (lines 388-398) -/

/-- First-character test `*token == c` on a token. -/
def headIs (t : List Char) (c : Char) : Bool :=
  match t with
  | [] => false
  | x :: _ => x = c

/-- The do-while loop of `read_voltages` (lines 295-308): each iteration
clears the zone flag when the token begins with `H` (296-298), appends
`atoi(token)` through `voltages_offset` when the zone flag is set (300-303),
and sets the zone flag when the token begins with `B` (305-307).  After the
last token the sentinel `-1` is written (line 310).  `buf` is the prefix of
the `voltages` buffer written so far. -/
def rvWrite (zone : Bool) (ts : List (List Char)) (buf : List ℤ) : List ℤ :=
  match ts with
  | [] => buf ++ [-1]
  | t :: ts1 =>
    let zone1 := if headIs t 'H' then false else zone
    let buf1 := if zone1 then buf ++ [atoi t] else buf
    let zone2 := if headIs t 'B' then true else zone1
    rvWrite zone2 ts1 buf1

/-- Embedding of `read_voltages` (lines 289-311).  `none` models the case
where the first `strtok` returns NULL (a line consisting only of commas):
the C code dereferences that null pointer at line 296, which is undefined
behavior, so no defined result exists. -/
def read_voltages (line : String) : Option (List ℤ) :=
  match tokenize line with
  | [] => none
  | ts => some (rvWrite false ts [])

/-- The battery-count scan of `main` (lines 388-398): the rendered Reading
Set is the prefix of the `voltages` buffer before the first `-1` sentinel. -/
def batteriesOf (voltages : List ℤ) : List ℤ :=
  voltages.takeWhile (fun v => v != -1)

/-- The Reading Set handed to the renderer for one line: `read_voltages`
followed by the sentinel scan of `main`. -/
def readingSet (line : String) : Option (List ℤ) :=
  (read_voltages line).map batteriesOf

/-- Modelled from the claim wording of C3, for comparison with the code:
identical zone handling, except that a token beginning with `B` is itself
never extracted. -/
def extractClaimC3 (zone : Bool) (ts : List (List Char)) : List ℤ :=
  match ts with
  | [] => []
  | t :: ts1 =>
    let zone1 := if headIs t 'H' then false else zone
    let out := if zone1 && !headIs t 'B' then [atoi t] else []
    let zone2 := if headIs t 'B' then true else zone1
    out ++ extractClaimC3 zone2 ts1

/-- The claimed extraction of C3 on a whole record. -/
def extract_readings_claimC3 (line : String) : List ℤ :=
  extractClaimC3 false (tokenize line)

/-- The amended per-token extraction rule: a token beginning with `H` closes
the zone before its own eligibility is evaluated; every token seen while the
zone is open — including one beginning with `B` — is leniently parsed and
appended; a token beginning with `B` opens the zone only after its own
eligibility was evaluated. -/
def extractAmended (zone : Bool) (ts : List (List Char)) : List ℤ :=
  match ts with
  | [] => []
  | t :: ts1 =>
    let zone1 := if headIs t 'H' then false else zone
    let out := if zone1 then [atoi t] else []
    let zone2 := if headIs t 'B' then true else zone1
    out ++ extractAmended zone2 ts1

/-! ### Lemmas about the extraction loop -/

/-- The buffer written by the do-while loop is the incoming prefix, the
directly-extracted values, and the sentinel. -/
theorem rvWrite_eq (zone : Bool) (ts : List (List Char)) (buf : List ℤ) :
    rvWrite zone ts buf = buf ++ extractAmended zone ts ++ [-1] := by
  induction ts generalizing zone buf with
  | nil => simp [rvWrite, extractAmended]
  | cons t ts1 ih =>
    simp only [rvWrite, extractAmended]
    rw [ih]
    by_cases h : (if headIs t 'H' then false else zone) = true
    · simp [h, List.append_assoc]
    · simp only [Bool.not_eq_true] at h
      simp [h, List.append_assoc]

/-- Every extracted value is the lenient parse of some token. -/
theorem extractAmended_mem (zone : Bool) (ts : List (List Char)) (v : ℤ)
    (hv : v ∈ extractAmended zone ts) : ∃ t ∈ ts, v = atoi t := by
  induction ts generalizing zone with
  | nil => simp [extractAmended] at hv
  | cons t ts1 ih =>
    simp only [extractAmended, List.mem_append] at hv
    rcases hv with h | h
    · refine ⟨t, List.mem_cons_self t ts1, ?_⟩
      by_cases hz : (if headIs t 'H' then false else zone) = true
      · rw [if_pos hz] at h
        simpa using h
      · rw [if_neg hz] at h
        simp at h
    · obtain ⟨t1, ht1, hv1⟩ := ih _ h
      exact ⟨t1, List.mem_cons_of_mem t ht1, hv1⟩

/-- If no token opens a zone, nothing is extracted. -/
theorem extractAmended_no_zone (ts : List (List Char))
    (h : ∀ t ∈ ts, headIs t 'B' = false) : extractAmended false ts = [] := by
  induction ts with
  | nil => rfl
  | cons t ts1 ih =>
    have hB : headIs t 'B' = false := h t (List.mem_cons_self t ts1)
    have hz : (if headIs t 'H' = true then false else false) = false := by
      split <;> rfl
    simp only [extractAmended, hB, hz, Bool.false_eq_true, if_false,
      List.nil_append]
    exact ih (fun t1 ht1 => h t1 (List.mem_cons_of_mem t ht1))

/-- Accumulating digits of a token preserves nonnegativity. -/
theorem atoiDigits_nonneg (cs : List Char) (acc : ℤ) (h : 0 ≤ acc) :
    0 ≤ atoiDigits cs acc := by
  induction cs generalizing acc with
  | nil => simpa [atoiDigits] using h
  | cons c cs1 ih =>
    simp only [atoiDigits]
    by_cases hc : c.isDigit
    · rw [if_pos hc]
      refine ih _ ?_
      have h1 : (0 : ℤ) ≤ ((c.toNat - 48 : ℕ) : ℤ) := Int.ofNat_nonneg _
      linarith
    · rw [if_neg hc]
      exact h

/-- Reduction of `atoi` on a token whose first character is not a space. -/
theorem atoi_cons_eq (c : Char) (cs : List Char) (hs : isSpaceC c = false) :
    atoi (c :: cs) =
      if c = '-' then - atoiDigits cs 0
      else if c = '+' then atoiDigits cs 0
      else atoiDigits (c :: cs) 0 := by
  unfold atoi
  rw [List.dropWhile_cons_of_neg (by simp [hs])]

/-- The lenient parse of a token made of allowed characters is nonnegative:
no allowed character is a space or a minus sign. -/
theorem atoi_nonneg_of_allowed (t : List Char)
    (h : ∀ c ∈ t, c ∈ allowedChars) : 0 ≤ atoi t := by
  cases t with
  | nil => simp [atoi]
  | cons c cs =>
    have hs : isSpaceC c = false :=
      allowedChars_not_spaceC c (h c (List.mem_cons_self c cs))
    have hc := allowedChars_not_sign c (h c (List.mem_cons_self c cs))
    rw [atoi_cons_eq c cs hs, if_neg hc.1, if_neg hc.2]
    exact atoiDigits_nonneg _ _ le_rfl

/-! ### The Reading Set of a validated line -/

theorem mem_takeWhile_prop {α : Type} (p : α → Bool) :
    ∀ (l : List α) (a : α), a ∈ l.takeWhile p → p a = true := by
  intro l
  induction l with
  | nil =>
    intro a ha
    simp [List.takeWhile] at ha
  | cons b l1 ih =>
    intro a ha
    rw [List.takeWhile_cons] at ha
    by_cases hb : p b = true
    · rw [if_pos hb] at ha
      rcases List.mem_cons.mp ha with rfl | h
      · exact hb
      · exact ih a h
    · rw [if_neg hb] at ha
      simp at ha

/-- The sentinel scan recovers exactly the extracted values when none of
them collides with the sentinel. -/
theorem batteriesOf_append_sentinel (vals : List ℤ) (h : ∀ v ∈ vals, 0 ≤ v) :
    batteriesOf (vals ++ [-1]) = vals := by
  induction vals with
  | nil => simp [batteriesOf]
  | cons v vs ih =>
    have hv : (v != -1) = true := by
      have h0 := h v (List.mem_cons_self v vs)
      simp only [bne_iff_ne, ne_eq]
      intro he
      rw [he] at h0
      norm_num at h0
    simp only [batteriesOf, List.cons_append, List.takeWhile_cons, hv, if_true]
    have ih1 := ih (fun v1 hv1 => h v1 (List.mem_cons_of_mem v hv1))
    simp only [batteriesOf] at ih1
    rw [ih1]

/-- Characters of a line accepted by the validator are all allowed. -/
theorem valid_line_chars (raw t : String) (h : is_valid_line raw = some t) :
    ∀ c ∈ t.toList, c ∈ allowedChars := by
  obtain ⟨-, hall, ht⟩ := (is_valid_line_some_iff raw t).mp h
  subst ht
  exact hall

/-- All values extracted from the tokens of a validated line are
nonnegative. -/
theorem extract_nonneg_of_valid (raw t : String) (h : is_valid_line raw = some t) :
    ∀ v ∈ extractAmended false (tokenize t), 0 ≤ v := by
  intro v hv
  obtain ⟨tok, htok, rfl⟩ := extractAmended_mem false (tokenize t) v hv
  refine atoi_nonneg_of_allowed tok (fun c hc => ?_)
  exact valid_line_chars raw t h c (tokenize_chars t tok htok c hc)

/-- On a validated line with at least one token, the Reading Set is exactly
the directly-extracted value list (the sentinel is transparent). -/
theorem readingSet_of_valid (raw t : String) (h : is_valid_line raw = some t)
    (hne : tokenize t ≠ []) :
    readingSet t = some (extractAmended false (tokenize t)) := by
  cases hts : tokenize t with
  | nil => exact absurd hts hne
  | cons a as =>
    have hrv : read_voltages t = some (rvWrite false (a :: as) []) := by
      simp [read_voltages, hts]
    unfold readingSet
    rw [hrv]
    simp only [Option.map_some']
    rw [rvWrite_eq, List.nil_append]
    have hnn : ∀ v ∈ extractAmended false (a :: as), 0 ≤ v := by
      have := extract_nonneg_of_valid raw t h
      rw [hts] at this
      exact this
    rw [batteriesOf_append_sentinel _ hnn]

/-- A value is a reading of the program when some accepted source line
produces it in the rendered Reading Set. -/
def Reading (v : ℤ) : Prop :=
  ∃ raw t vs, is_valid_line raw = some t ∧ readingSet t = some vs ∧ v ∈ vs

/-- Every reading the program can render is nonnegative: validated lines
contain no minus sign, so the lenient parse never goes below zero. -/
theorem reading_nonneg (v : ℤ) (h : Reading v) : 0 ≤ v := by
  obtain ⟨raw, t, vs, hval, hset, hv⟩ := h
  unfold readingSet at hset
  cases hrv : read_voltages t with
  | none =>
    rw [hrv] at hset
    simp at hset
  | some l =>
    rw [hrv] at hset
    simp only [Option.map_some', Option.some.injEq] at hset
    cases hts : tokenize t with
    | nil => simp [read_voltages, hts] at hrv
    | cons a as =>
      have hl : l = extractAmended false (a :: as) ++ [-1] := by
        have : read_voltages t = some (rvWrite false (a :: as) []) := by
          simp [read_voltages, hts]
        rw [this] at hrv
        have h2 := Option.some.inj hrv
        rw [← h2, rvWrite_eq, List.nil_append]
      subst hset hl
      have hp := mem_takeWhile_prop _ _ v hv
      have hvm : v ∈ extractAmended false (a :: as) ++ [-1] :=
        (List.takeWhile_sublist _).subset hv
      have hne : v ≠ -1 := by simpa using hp
      have hvm2 : v ∈ extractAmended false (a :: as) := by
        rcases List.mem_append.mp hvm with h1 | h1
        · exact h1
        · simp only [List.mem_singleton] at h1
          exact absurd h1 hne
      obtain ⟨tok, htok, rfl⟩ := extractAmended_mem _ _ v hvm2
      refine atoi_nonneg_of_allowed tok (fun c hc => ?_)
      refine valid_line_chars raw t hval c ?_
      refine tokenize_chars t tok ?_ c hc
      rw [hts]
      exact htok

/-! ## Claim C3 (zone extraction), C6 (validation), C9 (idempotence),
C10 (first token) -/

/-- C3 counterexample: the claim states that a token beginning with `B` is
itself never extracted, but on `"B,B,10"` the second `B` token sits inside
the zone opened by the first and IS extracted (leniently, as 0): the code
yields the Reading Set `[0, 10]` while the claimed rule yields `[10]`. -/
theorem read_voltages_extracts_inner_B_token :
    readingSet "B,B,10" = some [0, 10]
    ∧ extract_readings_claimC3 "B,B,10" = [10]
    ∧ ¬ ([0, 10] : List ℤ) = [10] := by
  refine ⟨by decide, by decide, by decide⟩

/-- C3 (amended): per token, in order, a leading `H` clears the zone flag
before eligibility is evaluated; a token seen while the zone flag is true is
leniently parsed and appended — including a token beginning with `B`, which
parses as 0 — and a leading `B` sets the zone flag only after eligibility
was evaluated (so the token opening a zone is not extracted).  On a
validated line with at least one token, the rendered Reading Set is exactly
this extraction; `"X,B,10,20,H,Y,30"` yields `[10, 20]`, and a record with
no `B`-zone yields an empty Reading Set. -/
theorem extract_readings_rule (raw t : String) (h : is_valid_line raw = some t)
    (hne : tokenize t ≠ []) :
    readingSet t = some (extractAmended false (tokenize t))
    ∧ readingSet "X,B,10,20,H,Y,30" = some [10, 20]
    ∧ ∀ s : String, (∀ tok ∈ tokenize s, headIs tok 'B' = false) →
        extractAmended false (tokenize s) = [] := by
  refine ⟨readingSet_of_valid raw t h hne, by decide, ?_⟩
  intro s hs
  exact extractAmended_no_zone (tokenize s) hs

/-- C3 witness: the amended rule applied to the concrete record
`"X,B,10,20,H,Y,30"`. -/
theorem extract_readings_rule_witness :
    readingSet "X,B,10,20,H,Y,30" = some [10, 20] :=
  (extract_readings_rule "X,B,10,20,H,Y,30" "X,B,10,20,H,Y,30"
    (by decide) (by decide)).2.1

/-- C6: `is_valid_line` strips the whitespace characters (space, tab, CR,
LF — the set the source consults via `strchr(" \t\r\n", c)`) and rejects
exactly when the stripped text is empty or contains a character outside
`{0-9, A-Z, ','}`; on success it returns the stripped text; any input
containing a lowercase letter, or any non-whitespace character outside the
allowed set, is rejected regardless of what stripping removes. -/
theorem validate_and_normalize_spec (s : String) :
    (is_valid_line s = none ↔
      stripWS s.toList = [] ∨ ∃ c ∈ stripWS s.toList, c ∉ allowedChars)
    ∧ (∀ t, is_valid_line s = some t → t = String.mk (stripWS s.toList))
    ∧ (∀ c ∈ s.toList, isStripWS c = false → c ∉ allowedChars →
        is_valid_line s = none)
    ∧ (∀ c ∈ s.toList, c.isLower = true → is_valid_line s = none) := by
  have hreject : ∀ c ∈ s.toList, isStripWS c = false → c ∉ allowedChars →
      is_valid_line s = none := by
    intro c hc hws hna
    refine (is_valid_line_none_iff s).mpr (Or.inr ⟨c, ?_, hna⟩)
    exact List.mem_filter.mpr ⟨hc, by simp [hws]⟩
  refine ⟨is_valid_line_none_iff s, ?_, hreject, ?_⟩
  · intro t ht
    exact ((is_valid_line_some_iff s t).mp ht).2.2
  · intro c hc hlow
    refine hreject c hc (isLower_not_ws c hlow) ?_
    intro hmem
    have := allowedChars_not_lower c hmem
    rw [hlow] at this
    exact Bool.true_eq_false.mp this

/-- C6 witness: a record containing a lowercase letter is rejected. -/
theorem validate_and_normalize_spec_witness : is_valid_line "aB,10" = none :=
  (validate_and_normalize_spec "aB,10").2.2.2 'a' (by decide) (by decide)

/-- C9: `is_valid_line` is idempotent — its output on an accepted record
contains no whitespace and only allowed characters, so re-validating the
output accepts and returns it unchanged. -/
theorem validate_and_normalize_idempotent (s t : String)
    (h : is_valid_line s = some t) : is_valid_line t = some t := by
  obtain ⟨hne, hall, ht⟩ := (is_valid_line_some_iff s t).mp h
  have htl : t.toList = stripWS s.toList := by subst ht; rfl
  have hstrip : stripWS t.toList = t.toList := by
    refine List.filter_eq_self.mpr (fun c hc => ?_)
    have hc1 : c ∈ stripWS s.toList := htl ▸ hc
    simp [allowedChars_not_ws c (hall c hc1)]
  refine (is_valid_line_some_iff t t).mpr ⟨?_, ?_, ?_⟩
  · rw [hstrip, htl]
    exact hne
  · intro c hc
    rw [hstrip, htl] at hc
    exact hall c hc
  · rw [hstrip]
    cases t
    rfl

/-- C9 witness: idempotence at a concrete accepted record with whitespace. -/
theorem validate_and_normalize_idempotent_witness :
    is_valid_line "B,10,H" = some "B,10,H" :=
  validate_and_normalize_idempotent " B,10,H " "B,10,H" (by decide)

/-- C10 counterexample: the record `",,,"` — commas only — is accepted by
the validator, yet `strtok` finds no token in it, so the first `strtok`
call of `read_voltages` returns NULL and the unconditional `*token`
dereference at line 296 is reached with a null pointer. -/
theorem valid_line_with_no_token :
    is_valid_line ",,," = some ",,,"
    ∧ tokenize ",,," = []
    ∧ read_voltages ",,," = none := by
  refine ⟨by decide, by decide, by decide⟩

/-- C10 (amended): for every record accepted by the validator that contains
at least one character other than `','`, tokenization yields at least one
token and `read_voltages` is defined; a validated record made only of
commas is accepted but yields zero tokens, reaching the null first token. -/
theorem tokenize_valid_nonempty (raw t : String)
    (h : is_valid_line raw = some t) (hc : ∃ c ∈ t.toList, c ≠ ',') :
    tokenize t ≠ [] ∧ (read_voltages t).isSome = true := by
  obtain ⟨c, hc1, hc2⟩ := hc
  have hne : tokenize t ≠ [] := by
    intro h0
    have hj : (tokenize t).flatten = [] := by rw [h0]; rfl
    rw [tokenize_join] at hj
    have : c ∈ t.toList.filter (fun c => c ≠ ',') :=
      List.mem_filter.mpr ⟨hc1, by simp [hc2]⟩
    rw [hj] at this
    simp at this
  refine ⟨hne, ?_⟩
  cases hts : tokenize t with
  | nil => exact absurd hts hne
  | cons a as => simp [read_voltages, hts]

/-- C10 witness: the amended statement at the concrete record `"B,10,H"`. -/
theorem tokenize_valid_nonempty_witness :
    tokenize "B,10,H" ≠ [] ∧ (read_voltages "B,10,H").isSome = true :=
  tokenize_valid_nonempty "B,10,H" "B,10,H" (by decide)
    ⟨'B', by decide, by decide⟩

/-! ## Configuration: the globals of lines 14-33 and `set_options`
(lines 195-272) -/

/-- The process-wide configuration globals.  `screenHeight`, `barWidth`,
`voltsMin`, `voltsMax`, `maxLineLength` and `frameInterval` are C
`unsigned int` globals, modelled as `ℕ` values below `2 ^ 32`;
`spaceBetweenBars` is a signed `int`. -/
structure Config where
  screenHeight : ℕ
  barWidth : ℕ
  spaceBetweenBars : ℤ
  voltsMin : ℕ
  voltsMax : ℕ
  maxLineLength : ℕ
  frameInterval : ℕ
  outputFile : Option String
deriving DecidableEq

/-- The initializers of lines 14-33: height 24, bar width 3, spacing 3,
volts 80..150 (tenths), line length 512, interval 0, no mirror file. -/
def defaultConfig : Config := ⟨24, 3, 3, 80, 150, 512, 0, none⟩

/-- Conversion of a C `int` value to `unsigned int` (store into an unsigned
global). -/
def u32 (n : ℤ) : ℕ := (n % 2 ^ 32).toNat

/-- One `getopt_long_only` result handed to the switch of `set_options`:
either a recognized long option with its `optarg` text, or `--help`
(case 9), or an unrecognized option (the `?` case). -/
inductive Opt where
  | screenHeight (s : String)
  | barWidth (s : String)
  | spaceBetweenBars (s : String)
  | voltsMin (s : String)
  | voltsMax (s : String)
  | maxLineLength (s : String)
  | frameInterval (s : String)
  | outputFile (s : String)
  | help
  | unknown
deriving DecidableEq

/-- One iteration of the option switch (lines 219-262): recognized options
overwrite the corresponding global via `atoi` (volts are scaled by 10,
the frame interval by 1000); `--help` and unrecognized options set the
`failure` flag. -/
def applyOpt (st : Config × Bool) (o : Opt) : Config × Bool :=
  match o with
  | .screenHeight s => ({ st.1 with screenHeight := u32 (atoi s.toList) }, st.2)
  | .barWidth s => ({ st.1 with barWidth := u32 (atoi s.toList) }, st.2)
  | .spaceBetweenBars s => ({ st.1 with spaceBetweenBars := atoi s.toList }, st.2)
  | .voltsMin s => ({ st.1 with voltsMin := u32 (10 * atoi s.toList) }, st.2)
  | .voltsMax s => ({ st.1 with voltsMax := u32 (10 * atoi s.toList) }, st.2)
  | .maxLineLength s => ({ st.1 with maxLineLength := u32 (atoi s.toList) }, st.2)
  | .frameInterval s => ({ st.1 with frameInterval := u32 (1000 * atoi s.toList) }, st.2)
  | .outputFile s => ({ st.1 with outputFile := some s }, st.2)
  | .help => (st.1, true)
  | .unknown => (st.1, true)

/-- Embedding of `set_options` (lines 195-272): fold the option switch over
the command line; when the failure flag is set, print usage and exit
(`none`); otherwise the configuration stands and the derived values are
computed from it (`offsetTop`, `stepDenom`, `voltsStepQ` below). -/
def set_options (opts : List Opt) : Option Config :=
  if (opts.foldl applyOpt (defaultConfig, false)).2 then none
  else some (opts.foldl applyOpt (defaultConfig, false)).1

/-- OFFSET_BOTTOM = 3 (line 17). -/
def offsetBottom : ℕ := 3

/-- OFFSET_TOP = SCREEN_HEIGHT - 1 (line 270), in `unsigned int`
arithmetic. -/
def offsetTop (cfg : Config) : ℕ := (cfg.screenHeight + 2 ^ 32 - 1) % 2 ^ 32

/-- The denominator OFFSET_TOP - OFFSET_BOTTOM of line 271, in
`unsigned int` arithmetic. -/
def stepDenom (cfg : Config) : ℕ := (offsetTop cfg + 2 ^ 32 - offsetBottom) % 2 ^ 32

/-- VOLTS_STEP = (double)(VOLTS_MAX - VOLTS_MIN) / (OFFSET_TOP -
OFFSET_BOTTOM) (line 271): both subtractions are `unsigned int`
subtractions; the `double` quotient is modelled exactly in `ℚ`. -/
def voltsStepQ (cfg : Config) : ℚ :=
  (((cfg.voltsMax + 2 ^ 32 - cfg.voltsMin) % 2 ^ 32 : ℕ) : ℚ) / (stepDenom cfg : ℚ)

/-! ## Rounding and bar geometry: `round_to_int` (lines 167-176) and
`print_battery_bars` (lines 130-161) -/

/-- C truncation toward zero, `(int) x` on a `double`. -/
def truncQ (x : ℚ) : ℤ := if 0 ≤ x then ⌊x⌋ else ⌈x⌉

/-- Embedding of `round_to_int` (lines 167-176): add +0.5 for positive
arguments and -0.5 otherwise, then truncate toward zero. -/
def roundToInt (x : ℚ) : ℤ :=
  if 0 < x then truncQ (x + 1 / 2) else truncQ (x - 1 / 2)

/-- Modelled from the spec wording: round half away from zero (ties round
outward). -/
def roundHalfAway (x : ℚ) : ℤ :=
  if 0 ≤ x then ⌊x + 1 / 2⌋ else ⌈x - 1 / 2⌉

/-- The clamping of lines 134-139.  Both comparisons are C comparisons of an
`int` element against an `unsigned int` global, so the `int` side is
converted to `unsigned int` (`% 2 ^ 32`) first; the assigned global value is
taken below `2 ^ 31`, so storing it back into the `int` element preserves
it. -/
def clampC (cfg : Config) (v : ℤ) : ℤ :=
  let v1 := if v % 2 ^ 32 < (cfg.voltsMin : ℤ) then (cfg.voltsMin : ℤ) else v
  if (cfg.voltsMax : ℤ) < v1 % 2 ^ 32 then (cfg.voltsMax : ℤ) else v1

/-- The `current` computation of line 141 on an already-clamped element:
`1 + round_to_int((batteries[i] - VOLTS_MIN) / VOLTS_STEP)`.  The
subtraction is again `int` minus `unsigned int`, i.e. an `unsigned`
subtraction, whose value then converts exactly to `double`. -/
def barCurrent (cfg : Config) (v : ℤ) : ℤ :=
  1 + roundToInt ((((v - (cfg.voltsMin : ℤ)) % 2 ^ 32 : ℤ) : ℚ) / voltsStepQ cfg)

/-- The rows painted with the filled glyph for one bar: the loop of lines
145-149 paints rows `j = 0 .. current-1`. -/
def filledLevels (cfg : Config) (v : ℤ) : List ℕ :=
  List.range (barCurrent cfg v).toNat

/-- One frame of `print_battery_bars` (lines 130-161): per battery, clamp
then paint `filledLevels` rows. -/
def drawFrame (cfg : Config) (readings : List ℤ) : List (List ℕ) :=
  readings.map (fun v => filledLevels cfg (clampC cfg v))

/-- The rounding stage of line 141 evaluated at an exact rational reading
(used to state the half-step tie behavior). -/
def barHeightQ (cfg : Config) (x : ℚ) : ℤ :=
  roundToInt ((x - (cfg.voltsMin : ℚ)) / voltsStepQ cfg)

/-! ### Rounding lemmas -/

/-- The truncation rule of `round_to_int` coincides with round half away
from zero on every rational. -/
theorem roundToInt_eq_roundHalfAway (x : ℚ) : roundToInt x = roundHalfAway x := by
  unfold roundToInt roundHalfAway truncQ
  by_cases hx : 0 < x
  · rw [if_pos hx, if_pos (by linarith : (0 : ℚ) ≤ x + 1 / 2),
      if_pos (le_of_lt hx)]
  · rw [if_neg hx]
    push_neg at hx
    by_cases hx0 : 0 ≤ x
    · have hx00 : x = 0 := le_antisymm hx hx0
      subst hx00
      rw [if_pos le_rfl]
      rw [if_neg (by norm_num : ¬ (0 : ℚ) ≤ 0 - 1 / 2)]
      norm_num
    · rw [if_neg hx0, if_neg (by push_neg at hx0; linarith : ¬ (0 : ℚ) ≤ x - 1 / 2)]

theorem roundHalfAway_mono (x y : ℚ) (h : x ≤ y) :
    roundHalfAway x ≤ roundHalfAway y := by
  unfold roundHalfAway
  by_cases hx : 0 ≤ x
  · rw [if_pos hx, if_pos (le_trans hx h)]
    exact Int.floor_le_floor (by linarith)
  · rw [if_neg hx]
    by_cases hy : 0 ≤ y
    · rw [if_pos hy]
      have h1 : ⌈x - 1 / 2⌉ ≤ 0 := by
        rw [Int.ceil_le]
        push_neg at hx
        push_cast
        linarith
      have h2 : (0 : ℤ) ≤ ⌊y + 1 / 2⌋ := Int.floor_nonneg.mpr (by linarith)
      linarith
    · rw [if_neg hy]
      exact Int.ceil_le_ceil (by linarith)

theorem voltsStepQ_nonneg (cfg : Config) : 0 ≤ voltsStepQ cfg :=
  div_nonneg (Nat.cast_nonneg _) (Nat.cast_nonneg _)

/-- Under a sane configuration (`screen_height > 4`, `volts_min <
volts_max`, values in `unsigned` range) the voltage step is positive. -/
theorem voltsStepQ_pos (cfg : Config) (hmm : cfg.voltsMin < cfg.voltsMax)
    (hmx : cfg.voltsMax < 2 ^ 32) (hsh : 4 < cfg.screenHeight)
    (hsh2 : cfg.screenHeight < 2 ^ 32) : 0 < voltsStepQ cfg := by
  unfold voltsStepQ stepDenom offsetTop offsetBottom
  have e : (2 : ℕ) ^ 32 = 4294967296 := by norm_num
  rw [e] at hmx hsh2 ⊢
  have hnum : (cfg.voltsMax + 4294967296 - cfg.voltsMin) % 4294967296
      = cfg.voltsMax - cfg.voltsMin := by omega
  have htop : (cfg.screenHeight + 4294967296 - 1) % 4294967296
      = cfg.screenHeight - 1 := by omega
  rw [hnum, htop]
  have hden : (cfg.screenHeight - 1 + 4294967296 - 3) % 4294967296
      = cfg.screenHeight - 4 := by omega
  rw [hden]
  apply div_pos
  · exact_mod_cast Nat.sub_pos_of_lt hmm
  · exact_mod_cast Nat.sub_pos_of_lt (by omega)

/-- For nonnegative `int`-range readings and `unsigned` bounds below
`2 ^ 31`, the two C comparisons of lines 134-139 implement the ordinary
two-sided clamp. -/
theorem clampC_eq (cfg : Config) (v : ℤ) (hv0 : 0 ≤ v) (hv1 : v < 2 ^ 31)
    (h1 : cfg.voltsMin ≤ cfg.voltsMax) (h2 : cfg.voltsMax < 2 ^ 31) :
    clampC cfg v = max (cfg.voltsMin : ℤ) (min v (cfg.voltsMax : ℤ)) := by
  have hpow : (2 : ℤ) ^ 31 < 2 ^ 32 := by norm_num
  have h2c : (cfg.voltsMax : ℤ) < 2 ^ 31 := by exact_mod_cast h2
  have h1c : (cfg.voltsMin : ℤ) ≤ (cfg.voltsMax : ℤ) := by exact_mod_cast h1
  have hminc : (cfg.voltsMin : ℤ) < 2 ^ 31 := lt_of_le_of_lt h1c h2c
  have hv32 : v % 2 ^ 32 = v := Int.emod_eq_of_lt hv0 (by linarith)
  have hvm : (cfg.voltsMin : ℤ) % 2 ^ 32 = (cfg.voltsMin : ℤ) :=
    Int.emod_eq_of_lt (Int.ofNat_nonneg _) (by linarith)
  simp only [clampC]
  rw [hv32]
  by_cases hlt : v < (cfg.voltsMin : ℤ)
  · simp only [if_pos hlt]
    rw [hvm, if_neg (not_lt.mpr h1c)]
    rw [min_eq_left (le_trans (le_of_lt hlt) h1c), max_eq_left (le_of_lt hlt)]
  · push_neg at hlt
    simp only [if_neg (not_lt.mpr hlt)]
    rw [hv32]
    by_cases hgt : (cfg.voltsMax : ℤ) < v
    · rw [if_pos hgt, min_eq_right (le_of_lt hgt), max_eq_right h1c]
    · push_neg at hgt
      rw [if_neg (not_lt.mpr hgt), min_eq_left hgt, max_eq_right hlt]

/-- On a clamped value the unsigned subtraction of line 141 does not wrap. -/
theorem barCurrent_eq (cfg : Config) (w : ℤ) (hw0 : (cfg.voltsMin : ℤ) ≤ w)
    (hw1 : w ≤ (cfg.voltsMax : ℤ)) (h2 : cfg.voltsMax < 2 ^ 31) :
    barCurrent cfg w
      = 1 + roundToInt (((w - (cfg.voltsMin : ℤ) : ℤ) : ℚ) / voltsStepQ cfg) := by
  have h2c : (cfg.voltsMax : ℤ) < 2 ^ 31 := by exact_mod_cast h2
  have hmin0 : (0 : ℤ) ≤ (cfg.voltsMin : ℤ) := Int.ofNat_nonneg _
  have hpow : (2 : ℤ) ^ 31 < 2 ^ 32 := by norm_num
  unfold barCurrent
  rw [Int.emod_eq_of_lt (by linarith) (by linarith)]

/-! ## Claim C2 (clamping), C7 (rounding and bar extent), C8
(monotonicity) -/

/-- C2: for every integer reading `v` the program can produce (a value of a
rendered Reading Set, necessarily a C `int`), `print_battery_bars` clamps
`v` into `[volts_min, volts_max]` before computing the bar height: a low
reading is replaced by `volts_min`, a high one by `volts_max`, an in-range
one is kept, and the clamped value always lies in the interval.
Out-of-range readings are never rejected — `clampC` is total. -/
theorem draw_frame_clamps (cfg : Config) (v : ℤ) (hr : Reading v)
    (hv : v < 2 ^ 31) (h1 : cfg.voltsMin ≤ cfg.voltsMax)
    (h2 : cfg.voltsMax < 2 ^ 31) :
    (v < (cfg.voltsMin : ℤ) → clampC cfg v = (cfg.voltsMin : ℤ))
    ∧ ((cfg.voltsMax : ℤ) < v → clampC cfg v = (cfg.voltsMax : ℤ))
    ∧ ((cfg.voltsMin : ℤ) ≤ v → v ≤ (cfg.voltsMax : ℤ) → clampC cfg v = v)
    ∧ (cfg.voltsMin : ℤ) ≤ clampC cfg v
    ∧ clampC cfg v ≤ (cfg.voltsMax : ℤ) := by
  have h0 : 0 ≤ v := reading_nonneg v hr
  have h1c : (cfg.voltsMin : ℤ) ≤ (cfg.voltsMax : ℤ) := by exact_mod_cast h1
  rw [clampC_eq cfg v h0 hv h1 h2]
  refine ⟨?_, ?_, ?_, le_max_left _ _, max_le h1c (min_le_right _ _)⟩
  · intro hlt
    rw [min_eq_left (le_trans (le_of_lt hlt) h1c), max_eq_left (le_of_lt hlt)]
  · intro hgt
    rw [min_eq_right (le_of_lt hgt), max_eq_right h1c]
  · intro hlo hhi
    rw [min_eq_left hhi, max_eq_right hlo]

/-- C2 witness: the reading 10 (from the accepted record `"B,10,H"`) is
below the default `volts_min = 80` and is clamped up to it. -/
theorem draw_frame_clamps_witness : clampC defaultConfig 10 = 80 :=
  (draw_frame_clamps defaultConfig 10
    ⟨"B,10,H", "B,10,H", [10], by decide, by decide, by decide⟩
    (by decide) (by decide) (by decide)).1 (by decide)

/-- C7: for a clamped voltage `v ∈ [volts_min, volts_max]` under a sane
configuration, the `current` of line 141 is `round_half_away_from_zero((v -
volts_min) / volts_step) + 1` and the painted rows are the levels `0..h`
inclusive (`h + 1` rows); a reading exactly at `volts_min` paints exactly
one row, and a reading at `volts_min + (k + 1/2) * volts_step` rounds up to
height `k + 1` (the half-step tie rounds away from zero). -/
theorem bar_height_rounding (cfg : Config) (v : ℤ)
    (hlo : (cfg.voltsMin : ℤ) ≤ v) (hhi : v ≤ (cfg.voltsMax : ℤ))
    (hmm : cfg.voltsMin < cfg.voltsMax) (hmx : cfg.voltsMax < 2 ^ 31)
    (hsh : 4 < cfg.screenHeight) (hsh2 : cfg.screenHeight < 2 ^ 32) :
    barCurrent cfg v
      = roundHalfAway (((v : ℚ) - (cfg.voltsMin : ℚ)) / voltsStepQ cfg) + 1
    ∧ filledLevels cfg v =
        List.range
          ((roundHalfAway (((v : ℚ) - (cfg.voltsMin : ℚ)) / voltsStepQ cfg)).toNat + 1)
    ∧ barCurrent cfg (cfg.voltsMin : ℤ) = 1
    ∧ ∀ k : ℕ,
        barHeightQ cfg ((cfg.voltsMin : ℚ) + ((k : ℚ) + 1 / 2) * voltsStepQ cfg)
          = (k : ℤ) + 1 := by
  have hstep0 : 0 ≤ voltsStepQ cfg := voltsStepQ_nonneg cfg
  have hstep : 0 < voltsStepQ cfg :=
    voltsStepQ_pos cfg hmm (lt_trans hmx (by norm_num)) hsh hsh2
  have hx0 : 0 ≤ ((v : ℚ) - (cfg.voltsMin : ℚ)) / voltsStepQ cfg := by
    apply div_nonneg _ hstep0
    have : (cfg.voltsMin : ℚ) ≤ (v : ℚ) := by exact_mod_cast hlo
    linarith
  have hc1 : barCurrent cfg v
      = roundHalfAway (((v : ℚ) - (cfg.voltsMin : ℚ)) / voltsStepQ cfg) + 1 := by
    rw [barCurrent_eq cfg v hlo hhi hmx]
    rw [roundToInt_eq_roundHalfAway]
    push_cast
    ring
  refine ⟨hc1, ?_, ?_, ?_⟩
  · have hh0 : 0 ≤ roundHalfAway (((v : ℚ) - (cfg.voltsMin : ℚ)) / voltsStepQ cfg) := by
      unfold roundHalfAway
      rw [if_pos hx0]
      exact Int.floor_nonneg.mpr (by linarith)
    unfold filledLevels
    rw [hc1]
    congr 1
    omega
  · rw [barCurrent_eq cfg (cfg.voltsMin : ℤ) le_rfl (by exact_mod_cast le_of_lt hmm) hmx]
    have hz : (((cfg.voltsMin : ℤ) - (cfg.voltsMin : ℤ) : ℤ) : ℚ) / voltsStepQ cfg = 0 := by
      simp
    rw [hz]
    have hr0 : roundToInt 0 = 0 := by
      unfold roundToInt truncQ
      rw [if_neg (by norm_num : ¬ (0 : ℚ) < 0)]
      rw [if_neg (by norm_num : ¬ (0 : ℚ) ≤ 0 - 1 / 2)]
      rw [show (0 : ℚ) - 1 / 2 = -(1 / 2) by norm_num]
      rw [show (0 : ℤ) = -⌊(1 : ℚ) / 2⌋ by norm_num, ← Int.ceil_neg]
    rw [hr0]
    norm_num
  · intro k
    unfold barHeightQ
    have harg : (((cfg.voltsMin : ℚ) + ((k : ℚ) + 1 / 2) * voltsStepQ cfg)
        - (cfg.voltsMin : ℚ)) / voltsStepQ cfg = (k : ℚ) + 1 / 2 := by
      rw [add_sub_cancel_left, mul_div_cancel_right₀ _ (ne_of_gt hstep)]
    rw [harg]
    unfold roundToInt truncQ
    rw [if_pos (by positivity : (0 : ℚ) < (k : ℚ) + 1 / 2)]
    rw [if_pos (by positivity : (0 : ℚ) ≤ (k : ℚ) + 1 / 2 + 1 / 2)]
    rw [show (k : ℚ) + 1 / 2 + 1 / 2 = ((k + 1 : ℤ) : ℚ) by push_cast; ring]
    rw [Int.floor_intCast]

/-- C7 witness: with the default configuration a reading exactly at
`volts_min = 80` draws exactly one filled row. -/
theorem bar_height_rounding_witness : barCurrent defaultConfig 80 = 1 :=
  (bar_height_rounding defaultConfig 80 (by decide) (by decide) (by decide)
    (by decide) (by decide) (by decide)).2.2.1

/-- C8: over the readings the program can produce, clamping followed by the
bar-height computation is monotonic non-decreasing. -/
theorem bar_height_monotone (cfg : Config) (v1 v2 : ℤ)
    (hr1 : Reading v1) (hr2 : Reading v2) (hb1 : v1 < 2 ^ 31)
    (hb2 : v2 < 2 ^ 31) (h12 : v1 ≤ v2) (h1 : cfg.voltsMin ≤ cfg.voltsMax)
    (h2 : cfg.voltsMax < 2 ^ 31) :
    barCurrent cfg (clampC cfg v1) ≤ barCurrent cfg (clampC cfg v2) := by
  have h01 := reading_nonneg v1 hr1
  have h02 := reading_nonneg v2 hr2
  have hc1 := clampC_eq cfg v1 h01 hb1 h1 h2
  have hc2 := clampC_eq cfg v2 h02 hb2 h1 h2
  have h1c : (cfg.voltsMin : ℤ) ≤ (cfg.voltsMax : ℤ) := by exact_mod_cast h1
  have hw1lo : (cfg.voltsMin : ℤ) ≤ clampC cfg v1 := by
    rw [hc1]; exact le_max_left _ _
  have hw1hi : clampC cfg v1 ≤ (cfg.voltsMax : ℤ) := by
    rw [hc1]; exact max_le h1c (min_le_right _ _)
  have hw2lo : (cfg.voltsMin : ℤ) ≤ clampC cfg v2 := by
    rw [hc2]; exact le_max_left _ _
  have hw2hi : clampC cfg v2 ≤ (cfg.voltsMax : ℤ) := by
    rw [hc2]; exact max_le h1c (min_le_right _ _)
  have hmono : clampC cfg v1 ≤ clampC cfg v2 := by
    rw [hc1, hc2]
    exact max_le_max le_rfl (min_le_min h12 le_rfl)
  rw [barCurrent_eq cfg _ hw1lo hw1hi h2, barCurrent_eq cfg _ hw2lo hw2hi h2]
  have hnum : (((clampC cfg v1 - (cfg.voltsMin : ℤ) : ℤ)) : ℚ)
      ≤ ((clampC cfg v2 - (cfg.voltsMin : ℤ) : ℤ) : ℚ) := by
    exact_mod_cast sub_le_sub_right hmono _
  have hdiv : (((clampC cfg v1 - (cfg.voltsMin : ℤ) : ℤ)) : ℚ) / voltsStepQ cfg
      ≤ ((clampC cfg v2 - (cfg.voltsMin : ℤ) : ℤ) : ℚ) / voltsStepQ cfg := by
    rcases eq_or_lt_of_le (voltsStepQ_nonneg cfg) with hz | hp
    · rw [← hz]
      simp
    · exact (div_le_div_iff_of_pos_right hp).mpr hnum
  refine add_le_add_left ?_ 1
  rw [roundToInt_eq_roundHalfAway, roundToInt_eq_roundHalfAway]
  exact roundHalfAway_mono _ _ hdiv

/-- C8 witness: readings 10 and 20 from accepted records, both clamped,
give non-decreasing heights under the default configuration. -/
theorem bar_height_monotone_witness :
    barCurrent defaultConfig (clampC defaultConfig 10)
      ≤ barCurrent defaultConfig (clampC defaultConfig 20) :=
  bar_height_monotone defaultConfig 10 20
    ⟨"B,10,H", "B,10,H", [10], by decide, by decide, by decide⟩
    ⟨"B,20,H", "B,20,H", [20], by decide, by decide, by decide⟩
    (by decide) (by decide) (by decide) (by decide) (by decide)

/-! ## Claim C5 (configuration validation) -/

/-- Discriminates the two option results that set the `failure` flag of
`set_options`. -/
def optFails : Opt → Bool
  | .help => true
  | .unknown => true
  | _ => false

theorem applyOpt_snd (st : Config × Bool) (o : Opt) :
    (applyOpt st o).2 = (st.2 || optFails o) := by
  cases o <;> simp [applyOpt, optFails]

theorem foldl_applyOpt_snd (opts : List Opt) :
    ∀ (c : Config) (b : Bool),
      (opts.foldl applyOpt (c, b)).2 = (b || opts.any optFails) := by
  induction opts with
  | nil =>
    intro c b
    simp
  | cons o os ih =>
    intro c b
    rw [List.foldl_cons]
    have h := ih (applyOpt (c, b) o).1 (applyOpt (c, b) o).2
    rw [Prod.mk.eta] at h
    rw [h, applyOpt_snd]
    simp [Bool.or_assoc]

theorem optFails_iff (o : Opt) : optFails o = true ↔ o = Opt.help ∨ o = Opt.unknown := by
  cases o <;> simp [optFails]

/-- C5 counterexample: `--screen-height=4` gives `offset_top = 3 =
offset_bottom`, yet `set_options` accepts the configuration and computes
the derived values, whose step denominator is zero — the claimed rejection
of `offset_top ≤ offset_bottom` does not exist in the code. -/
theorem screen_height_four_accepted :
    (set_options [Opt.screenHeight "4"]).map (fun c => (offsetTop c, stepDenom c))
      = some (3, 0)
    ∧ ¬ offsetBottom < 3 := by
  refine ⟨by decide, by decide⟩

/-- C5 (amended): `set_options` performs no geometry validation at all — it
rejects exactly when `--help` or an unrecognized option occurs, and for
every accepted configuration it computes the derived values `offset_top =
screen_height - 1` and the step denominator `offset_top - offset_bottom`
unconditionally, in wrapping `unsigned` arithmetic (denominator zero when
`screen_height = 4`). -/
theorem set_options_no_geometry_check (opts : List Opt) :
    ((set_options opts).isSome = true ↔ Opt.help ∉ opts ∧ Opt.unknown ∉ opts)
    ∧ ∀ c, set_options opts = some c →
        offsetTop c = (c.screenHeight + 2 ^ 32 - 1) % 2 ^ 32
        ∧ stepDenom c = (offsetTop c + 2 ^ 32 - offsetBottom) % 2 ^ 32 := by
  constructor
  · unfold set_options
    by_cases hf : (opts.foldl applyOpt (defaultConfig, false)).2 = true
    · rw [if_pos hf]
      simp only [Option.isSome_none, Bool.false_eq_true, false_iff, not_and]
      rw [foldl_applyOpt_snd] at hf
      simp only [Bool.false_or, List.any_eq_true] at hf
      obtain ⟨o, ho, hfo⟩ := hf
      rcases (optFails_iff o).mp hfo with rfl | rfl
      · intro hmem
        exact absurd ho hmem
      · intro _ hmem
        exact hmem ho
    · rw [if_neg hf]
      simp only [Option.isSome_some, true_iff]
      rw [foldl_applyOpt_snd] at hf
      simp only [Bool.false_or] at hf
      constructor
      · intro hmem
        exact hf (List.any_eq_true.mpr ⟨Opt.help, hmem, by simp [optFails]⟩)
      · intro hmem
        exact hf (List.any_eq_true.mpr ⟨Opt.unknown, hmem, by simp [optFails]⟩)
  · intro c _
    exact ⟨rfl, rfl⟩

/-- C5 witness: the no-geometry-check acceptance criterion at the concrete
degenerate command line `--screen-height=4`. -/
theorem set_options_no_geometry_check_witness :
    (set_options [Opt.screenHeight "4"]).isSome = true :=
  (set_options_no_geometry_check [Opt.screenHeight "4"]).1.mpr (by decide)

/-! ## Claim C4 (mirror output) and C1 (tailing read loop): the `main`
loop of lines 378-417 -/

/-- The bytes one accepted line contributes to the mirror file.  In `main`
(lines 382-385), `append_data_line` runs AFTER `is_valid_line` has already
overwritten the `line` buffer with its whitespace-stripped copy (line 348),
and writes that buffer via `fputs` plus one `fputc('\n')` (line 314).
`none` means the line was rejected and nothing is written. -/
def mirrorAppend (raw : String) : Option String :=
  (is_valid_line raw).map (fun t => t ++ "\n")

/-- C4 counterexample: for the raw source line `" B, 10\n"` (as read by
`fgets`, with inner whitespace and its newline) the mirror receives the
stripped text `"B,10\n"`, not the pre-strip original followed by a newline
— under either reading of "record" (with or without the terminator). -/
theorem mirror_writes_normalized :
    mirrorAppend " B, 10\n" = some "B,10\n"
    ∧ ¬ (some "B,10\n" = some (" B, 10\n" ++ "\n"))
    ∧ ¬ (some "B,10\n" = some (" B, 10" ++ "\n")) := by
  refine ⟨by decide, by decide, by decide⟩

/-- C4 (amended): for every accepted record, the bytes appended to the
mirror file are the whitespace-stripped normalized record followed by a
newline — `is_valid_line` mutates the shared line buffer in place before
`append_data_line` runs, so the pre-strip original is no longer available
to mirror. -/
theorem mirror_appends_stripped (raw : String)
    (h : (is_valid_line raw).isSome = true) :
    mirrorAppend raw = some (String.mk (stripWS raw.toList) ++ "\n") := by
  obtain ⟨t, ht⟩ := Option.isSome_iff_exists.mp h
  have he := ((is_valid_line_some_iff raw t).mp ht).2.2
  unfold mirrorAppend
  rw [ht, Option.map_some', he]

/-- C4 witness: the amended statement at the concrete raw line `" B, 10"`. -/
theorem mirror_appends_stripped_witness :
    mirrorAppend " B, 10" = some (String.mk (stripWS " B, 10".toList) ++ "\n") :=
  mirror_appends_stripped " B, 10" (by decide)

/-- One opening of the source file: the records `fgets` returns before it
returns NULL, and whether NULL was due to end-of-file (`feof` set, line
410) or to a read error. -/
structure Session where
  lines : List String
  isEof : Bool
deriving DecidableEq

/-- The frames rendered while processing one session: each line that
passes `is_valid_line` contributes the Reading Set of its normalized text
(lines 381-402); invalid lines are skipped silently. -/
def framesOfSession (s : Session) : List (List ℤ) :=
  s.lines.filterMap (fun l => (is_valid_line l).bind readingSet)

/-- The outer `for (;;)` loop of `main` (lines 378-417): open the file
(yielding the next session), render its records, then — line 414 — BREAK
out of the loop when `feof` was set, and reopen the file (continuing with
the next session, re-read from the start) otherwise.  The argument list
gives the successive contents of the file, one entry per `fopen`. -/
def runLoop : List Session → List (List ℤ)
  | [] => []
  | s :: rest => framesOfSession s ++ (if s.isEof then [] else runLoop rest)

/-- Modelled from the spec (C1): the claimed tailing behavior — on EOF
close and reopen the same path and continue reading, so later-appended
records are rendered too; a read error distinct from EOF terminates the
loop. -/
def runLoopSpecC1 : List Session → List (List ℤ)
  | [] => []
  | s :: rest => framesOfSession s ++ (if s.isEof then runLoopSpecC1 rest else [])

/-- C1 counterexample: a file holding one record `"B,10,H"` reaches EOF;
a record `"B,20,H"` is then appended, so its next opening holds both.  The
claimed tailing loop renders the appended record (frames `[[10], [10],
[20]]`), but the code stops at the first EOF and renders `[[10]]` only:
EOF terminates the loop instead of triggering a reopen. -/
theorem tail_loop_stops_at_eof :
    runLoop [⟨["B,10,H"], true⟩, ⟨["B,10,H", "B,20,H"], true⟩] = [[10]]
    ∧ runLoopSpecC1 [⟨["B,10,H"], true⟩, ⟨["B,10,H", "B,20,H"], true⟩]
        = [[10], [10], [20]]
    ∧ ¬ ([[10]] : List (List ℤ)) = [[10], [10], [20]] := by
  refine ⟨by decide, by decide, by decide⟩

/-- C1 (amended): on reaching end-of-file the read loop terminates (records
appended after the EOF are never rendered); a read error distinct from EOF
instead makes the reader close and reopen the same path — re-reading the
file from its beginning — and the loop repeats until an EOF occurs. -/
theorem tail_loop_behavior (s : Session) (rest : List Session) :
    (s.isEof = true → runLoop (s :: rest) = framesOfSession s)
    ∧ (s.isEof = false → runLoop (s :: rest) = framesOfSession s ++ runLoop rest) := by
  constructor
  · intro h
    simp [runLoop, h]
  · intro h
    simp [runLoop, h]

/-- C1 witness: a single session ending in EOF renders its frames and the
loop ends. -/
theorem tail_loop_behavior_witness :
    runLoop [⟨["B,10,H"], true⟩] = [[10]] := by
  have h := (tail_loop_behavior ⟨["B,10,H"], true⟩ []).1 rfl
  rw [h]
  decide

end BatteryMonitor
